import Mathlib

/-!
# Verification of the ORF-finder pipeline (`ORF_finder_regex.py`)

This file gives a shallow embedding of the ORF-detection pipeline:
the genetic-code table and translation (`DNA2AA`), the overlapping
start-codon scan performed by the regular expression
`(?=(ATG(?:[ATGC]{3})*?(?:TAA|TAG|TGA|(?=[ATCG]{1,2}?$)|(?:[ATCG]{1,2})?$)))`,
the coordinate mapping and frame bucketing of `find_orfs`, and the
per-frame deduplication `remove_contained_ranges`, together with
theorems about their behaviour.

Sequences are `List Char`; Python integers are `Int` (coordinates) or
`Nat` (offsets and lengths, cast where they meet `Int` arithmetic).
-/

namespace ORFFinder

/-- The `GENETIC_CODE` dictionary from `DNA2AA`, as an association list
(64 codons; the three stop codons map to the marker `*`). -/
def GENETIC_CODE : List (List Char × Char) :=
  [ (['A','T','A'], 'I'), (['A','T','C'], 'I'), (['A','T','T'], 'I'), (['A','T','G'], 'M'),
    (['A','C','A'], 'T'), (['A','C','C'], 'T'), (['A','C','G'], 'T'), (['A','C','T'], 'T'),
    (['A','A','C'], 'N'), (['A','A','T'], 'N'), (['A','A','A'], 'K'), (['A','A','G'], 'K'),
    (['A','G','C'], 'S'), (['A','G','T'], 'S'), (['A','G','A'], 'R'), (['A','G','G'], 'R'),
    (['C','T','A'], 'L'), (['C','T','C'], 'L'), (['C','T','G'], 'L'), (['C','T','T'], 'L'),
    (['C','C','A'], 'P'), (['C','C','C'], 'P'), (['C','C','G'], 'P'), (['C','C','T'], 'P'),
    (['C','A','C'], 'H'), (['C','A','T'], 'H'), (['C','A','A'], 'Q'), (['C','A','G'], 'Q'),
    (['C','G','A'], 'R'), (['C','G','C'], 'R'), (['C','G','G'], 'R'), (['C','G','T'], 'R'),
    (['G','T','A'], 'V'), (['G','T','C'], 'V'), (['G','T','G'], 'V'), (['G','T','T'], 'V'),
    (['G','C','A'], 'A'), (['G','C','C'], 'A'), (['G','C','G'], 'A'), (['G','C','T'], 'A'),
    (['G','A','C'], 'D'), (['G','A','T'], 'D'), (['G','A','A'], 'E'), (['G','A','G'], 'E'),
    (['G','G','A'], 'G'), (['G','G','C'], 'G'), (['G','G','G'], 'G'), (['G','G','T'], 'G'),
    (['T','C','A'], 'S'), (['T','C','C'], 'S'), (['T','C','G'], 'S'), (['T','C','T'], 'S'),
    (['T','T','C'], 'F'), (['T','T','T'], 'F'), (['T','T','A'], 'L'), (['T','T','G'], 'L'),
    (['T','A','C'], 'Y'), (['T','A','T'], 'Y'), (['T','A','A'], '*'), (['T','A','G'], '*'),
    (['T','G','C'], 'C'), (['T','G','T'], 'C'), (['T','G','A'], '*'), (['T','G','G'], 'W') ]

/-- `GENETIC_CODE.get(codon, 'X')`: dictionary lookup with default `'X'`. -/
def codonGet (codon : List Char) : Char :=
  (List.lookup codon GENETIC_CODE).getD 'X'

/-- `DNA2AA`: translate a nucleotide string by chunks of 3
(`for i in range(0, len(seq), 3)`, `codon = seq[i:i+3]`), mapping each
chunk — including a short final chunk of length 1 or 2 — through the
genetic-code dictionary with default `'X'`. -/
def DNA2AA : List Char → List Char
  | [] => []
  | [a] => [codonGet [a]]
  | [a, b] => [codonGet [a, b]]
  | a :: b :: c :: rest => codonGet [a, b, c] :: DNA2AA rest

/-- Character class `[ATGC]` of the scan regex. -/
def isNuc (c : Char) : Bool :=
  c == 'A' || c == 'T' || c == 'G' || c == 'C'

/-- The stop-codon alternatives `TAA|TAG|TGA` of the scan regex. -/
def isStopCodon (a b c : Char) : Bool :=
  (a == 'T' && b == 'A' && c == 'A') ||
  (a == 'T' && b == 'A' && c == 'G') ||
  (a == 'T' && b == 'G' && c == 'A')

/-- The in-frame extension performed by
`(?:[ATGC]{3})*?(?:TAA|TAG|TGA|(?=[ATCG]{1,2}?$)|(?:[ATCG]{1,2})?$)` on the
suffix following a matched `ATG`: the lazy codon loop stops at the first
in-frame stop codon (consuming it), or succeeds zero-width at the string
boundary (the `(?=[ATCG]{1,2}?$)` lookahead when 1-2 nucleotides remain,
the final `$` alternative when 0 remain).  Returns the number of
characters consumed after the `ATG`, or `none` when no alternative
matches (a non-`ATGC` symbol blocks the codon loop). -/
def extendFrom : List Char → Option Nat
  | a :: b :: c :: rest =>
    if isStopCodon a b c then some 3
    else if isNuc a && isNuc b && isNuc c then (extendFrom rest).map (· + 3)
    else none
  | s => if s.all isNuc then some 0 else none

/-- The candidate the regex reports from one position: the group
`ATG(?:[ATGC]{3})*?(...)` matched against the suffix starting there. -/
def orfAt : List Char → Option (List Char)
  | a :: b :: c :: rest =>
    if a == 'A' && b == 'T' && c == 'G' then
      (extendFrom rest).map (fun n => a :: b :: c :: rest.take n)
    else none
  | _ => none

/-- `pattern.finditer(seq)` with the zero-width lookahead wrapper `(?=(...))`:
the inner group is tried at every index, so overlapping candidates are all
reported.  Each element is `(startOffset, matchedGroup)`. -/
def scanAux : List Char → Nat → List (Nat × List Char)
  | [], _ => []
  | a :: rest, i =>
    match orfAt (a :: rest) with
    | some orf => (i, orf) :: scanAux rest (i + 1)
    | none => scanAux rest (i + 1)

/-- All overlapping matches of the ORF regex, with 0-based start offsets. -/
def scan (s : List Char) : List (Nat × List Char) :=
  scanAux s 0

/-- A candidate as stored in the buckets: `[start_index, end_index, orf]`. -/
abbrev Cand := Int × Int × List Char

/-- Complement of one nucleotide (pairing bases swapped). -/
def complementChar (c : Char) : Char :=
  if c == 'A' then 'T'
  else if c == 'T' then 'A'
  else if c == 'G' then 'C'
  else if c == 'C' then 'G'
  else c

/-- Modelled from the spec: the StrandProvider collaborator
(`Bio.Seq.reverse_complement`, external to the repository) — the
length-preserving, symbol-reversing contract of section 2, restricted to
the core alphabet (other symbols pass through unchanged). -/
def reverseComplement (s : List Char) : List Char :=
  (s.map complementChar).reverse

/-- The sequence scanned for a strand:
`(0, dna_sequence)` or `(1, reverse_complement)`. -/
def strandSeq (strand : Bool) (dna : List Char) : List Char :=
  if strand then reverseComplement dna else dna

/-- Coordinate mapping of `find_orfs`:
`start_index = len_seq - match.start(1) if strand == 1 else match.start(1) + 1`,
`end_index = len_seq - match.end(1) + 1 if strand == 1 else match.end(1)`. -/
def mapCand (strand : Bool) (lenSeq : Int) (m : Nat × List Char) : Cand :=
  let s0 : Int := m.1
  let e0 : Int := m.1 + m.2.length
  if strand then (lenSeq - s0, lenSeq - e0 + 1, m.2)
  else (s0 + 1, e0, m.2)

/-- All candidates one strand's scan contributes, in scan order, with
mapped coordinates. -/
def rawCands (strand : Bool) (dna : List Char) : List Cand :=
  (scan (strandSeq strand dna)).map (mapCand strand dna.length)

/-- The retention test of `find_orfs`:
`len(orf) % 3 == 0 and len(orf) >= min_dna_len`. -/
def passFilter (minDnaLen : Int) (c : Cand) : Bool :=
  c.2.2.length % 3 == 0 && minDnaLen ≤ (c.2.2.length : Int)

/-- `frame = (start_index - 1) % 3`. -/
def frameOf (c : Cand) : Int :=
  (c.1 - 1) % 3

/-- The contents of `orfs[record_id][strand][frame]` before deduplication:
candidates in scan order that pass the filter and fall in this frame. -/
def bucket (minDnaLen : Int) (strand : Bool) (dna : List Char) (frame : Int) : List Cand :=
  (rawCands strand dna).filter (fun c => passFilter minDnaLen c && frameOf c == frame)

/-- The footprint coordinate compared against `prev_end` in the sweep of
`remove_contained_ranges` (`start, end = (b, a) if reversed else (a, b)`;
the sweep tests `end`). -/
def highOf (rev : Bool) (c : Cand) : Int :=
  if rev then c.1 else c.2.1

/-- The other footprint bound (the `start` of the sweep's normalization). -/
def lowOf (rev : Bool) (c : Cand) : Int :=
  if rev then c.2.1 else c.1

/-- Sort key of `remove_contained_ranges`:
`(x[1], -x[0])` when reversed, `(x[0], -x[1])` otherwise. -/
def sortKey (rev : Bool) (c : Cand) : Int × Int :=
  if rev then (c.2.1, -c.1) else (c.1, -c.2.1)

/-- Lexicographic comparison of Python key tuples. -/
def pairLexLe (p q : Int × Int) : Bool :=
  decide (p.1 < q.1) || (decide (p.1 = q.1) && decide (p.2 ≤ q.2))

/-- Ordering used by `ranges.sort(key=...)`. -/
def keyLe (rev : Bool) (a b : Cand) : Bool :=
  pairLexLe (sortKey rev a) (sortKey rev b)

/-- Stable insertion of one element into a sorted list (helper for the
model of Python's stable `list.sort`). -/
def sInsert (le : Cand → Cand → Bool) (c : Cand) : List Cand → List Cand
  | [] => [c]
  | d :: rest => if le c d then c :: d :: rest else d :: sInsert le c rest

/-- Python's `list.sort` is a stable sort by key; any stable sort agrees
with it, so we model it by stable insertion sort. -/
def sortCands (le : Cand → Cand → Bool) : List Cand → List Cand
  | [] => []
  | c :: rest => sInsert le c (sortCands le rest)

/-- The sweep of `remove_contained_ranges`: keep a range iff its `end`
strictly exceeds `prev_end`, then update `prev_end`. -/
def rcrSweep (rev : Bool) : Int → List Cand → List Cand
  | _, [] => []
  | prevEnd, c :: rest =>
    if prevEnd < highOf rev c then c :: rcrSweep rev (highOf rev c) rest
    else rcrSweep rev prevEnd rest

/-- `remove_contained_ranges(ranges, reversed)`: sort by the key, then
sweep with `prev_end = -1`. -/
def remove_contained_ranges (ranges : List Cand) (rev : Bool) : List Cand :=
  rcrSweep rev (-1) (sortCands (keyLe rev) ranges)

/-- The final contents of `orfs[record_id][strand][frame]` for the
sequence `dna`: the deduplicated bucket (`reversed = strand==1`). -/
def find_orfs_strand (minDnaLen : Int) (strand : Bool) (dna : List Char) (frame : Int) :
    List Cand :=
  remove_contained_ranges (bucket minDnaLen strand dna frame) strand

/-- `find_orfs(sequences, min_dna_len)`, viewed as the map from
`(record_id, strand, frame)` to the surviving candidate list. -/
def find_orfs (sequences : List (String × List Char)) (minDnaLen : Int)
    (recordId : String) (strand : Bool) (frame : Int) : List Cand :=
  match List.lookup recordId sequences with
  | some dna => find_orfs_strand minDnaLen strand dna frame
  | none => []

/-! ### Lemmas about the scanner -/

theorem extendFrom_catchall (s : List Char)
    (hcons : ∀ (a b c : Char) (rest : List Char), s = a :: b :: c :: rest → False) :
    extendFrom s = if s.all isNuc then some 0 else none := by
  match s with
  | [] => rfl
  | [a] => rfl
  | [a, b] => rfl
  | a :: b :: c :: rest => exact (hcons a b c rest rfl).elim

theorem extendFrom_bounds : ∀ (s : List Char) (n : Nat),
    extendFrom s = some n → n % 3 = 0 ∧ n ≤ s.length := by
  intro s
  induction s using extendFrom.induct with
  | case1 a b c rest hstop =>
    intro n h
    rw [extendFrom, if_pos hstop] at h
    injection h with h
    subst h
    refine ⟨rfl, ?_⟩
    simp only [List.length_cons]
    omega
  | case2 a b c rest hstop hnuc ih =>
    intro n h
    rw [extendFrom, if_neg hstop, if_pos hnuc, Option.map_eq_some'] at h
    obtain ⟨m, hm, hn⟩ := h
    obtain ⟨h1, h2⟩ := ih m hm
    simp only [List.length_cons]
    omega
  | case3 a b c rest hstop hnuc =>
    intro n h
    rw [extendFrom, if_neg hstop, if_neg hnuc] at h
    cases h
  | case4 s hcons hall =>
    intro n h
    rw [extendFrom_catchall s hcons, if_pos hall] at h
    injection h with h
    subst h
    omega
  | case5 s hcons hall =>
    intro n h
    rw [extendFrom_catchall s hcons, if_neg hall] at h
    cases h

theorem orfAt_eq_some : ∀ (s orf : List Char), orfAt s = some orf →
    ∃ rest n, s = 'A' :: 'T' :: 'G' :: rest ∧ extendFrom rest = some n ∧
      orf = 'A' :: 'T' :: 'G' :: rest.take n := by
  intro s orf h
  match s with
  | [] => simp [orfAt] at h
  | [a] => simp [orfAt] at h
  | [a, b] => simp [orfAt] at h
  | a :: b :: c :: rest =>
    simp only [orfAt] at h
    split at h
    · rename_i hcond
      simp only [Bool.and_eq_true, beq_iff_eq] at hcond
      obtain ⟨⟨ha, hb⟩, hc⟩ := hcond
      subst ha; subst hb; subst hc
      simp only [Option.map_eq_some'] at h
      obtain ⟨n, hn, horf⟩ := h
      exact ⟨rest, n, rfl, hn, horf.symm⟩
    · cases h

theorem scanAux_mem : ∀ (s : List Char) (j i : Nat) (orf : List Char),
    (i, orf) ∈ scanAux s j → j ≤ i ∧ orfAt (s.drop (i - j)) = some orf := by
  intro s
  induction s with
  | nil => intro j i orf h; simp [scanAux] at h
  | cons a rest ih =>
    intro j i orf hmem
    rw [scanAux] at hmem
    cases horf : orfAt (a :: rest) with
    | some o =>
      rw [horf] at hmem
      rcases List.mem_cons.mp hmem with heq | hmem'
      · obtain ⟨hi, ho⟩ := Prod.mk.injEq .. ▸ heq
        cases hi; cases ho
        simpa using horf
      · obtain ⟨hj, hd⟩ := ih (j + 1) i orf hmem'
        refine ⟨by omega, ?_⟩
        have : i - j = (i - (j + 1)) + 1 := by omega
        rw [this, List.drop_succ_cons]
        exact hd
    | none =>
      rw [horf] at hmem
      obtain ⟨hj, hd⟩ := ih (j + 1) i orf hmem
      refine ⟨by omega, ?_⟩
      have : i - j = (i - (j + 1)) + 1 := by omega
      rw [this, List.drop_succ_cons]
      exact hd

/-- Structure of every candidate the scanner emits: it starts with `ATG`
at its start offset, its length is `3` plus the extension length (a
multiple of 3, so the whole candidate's length is a multiple of 3), and
it lies within the string. -/
theorem scan_mem_shape (s : List Char) (i : Nat) (orf : List Char)
    (h : (i, orf) ∈ scan s) :
    ∃ rest n, s.drop i = 'A' :: 'T' :: 'G' :: rest ∧ extendFrom rest = some n ∧
      orf = 'A' :: 'T' :: 'G' :: rest.take n ∧ orf.length = 3 + n ∧
      orf.length % 3 = 0 ∧ 3 ≤ orf.length ∧ i + orf.length ≤ s.length := by
  obtain ⟨-, hd⟩ := scanAux_mem s 0 i orf h
  rw [Nat.sub_zero] at hd
  obtain ⟨rest, n, hdrop, hext, horf⟩ := orfAt_eq_some _ _ hd
  obtain ⟨hn3, hnle⟩ := extendFrom_bounds rest n hext
  have hlen : orf.length = 3 + n := by
    rw [horf]
    simp only [List.length_cons, List.length_take]
    omega
  have hds : (s.drop i).length = s.length - i := List.length_drop ..
  rw [hdrop] at hds
  simp only [List.length_cons] at hds
  exact ⟨rest, n, hdrop, hext, horf, hlen, by omega, by omega, by omega⟩

/-- Containment of `ATG` as a substring, used for the no-start-codon case. -/
def hasATG : List Char → Bool
  | a :: b :: c :: rest => (a == 'A' && b == 'T' && c == 'G') || hasATG (b :: c :: rest)
  | _ => false

theorem hasATG_tail (a : Char) (rest : List Char) (h : hasATG (a :: rest) = false) :
    hasATG rest = false := by
  match rest with
  | [] => rfl
  | [b] => rfl
  | b :: c :: rest' =>
    rw [hasATG, Bool.or_eq_false_iff] at h
    exact h.2

theorem orfAt_of_hasATG_false (s : List Char) (h : hasATG s = false) :
    orfAt s = none := by
  match s with
  | [] => rfl
  | [a] => rfl
  | [a, b] => rfl
  | a :: b :: c :: rest =>
    rw [hasATG, Bool.or_eq_false_iff] at h
    rw [orfAt, h.1]
    simp

theorem scanAux_of_hasATG_false : ∀ (s : List Char) (j : Nat),
    hasATG s = false → scanAux s j = [] := by
  intro s
  induction s with
  | nil => intro j _; rfl
  | cons a rest ih =>
    intro j h
    rw [scanAux, orfAt_of_hasATG_false _ h]
    exact ih (j + 1) (hasATG_tail a rest h)

theorem hasATG_false_of_short (s : List Char) (h : s.length < 3) :
    hasATG s = false := by
  match s with
  | [] => rfl
  | [a] => rfl
  | [a, b] => rfl
  | a :: b :: c :: rest =>
    simp only [List.length_cons] at h
    omega

theorem reverseComplement_length (s : List Char) :
    (reverseComplement s).length = s.length := by
  simp [reverseComplement]

theorem strandSeq_length (strand : Bool) (dna : List Char) :
    (strandSeq strand dna).length = dna.length := by
  cases strand <;> simp [strandSeq, reverseComplement_length]

/-! ### Lemmas about sorting and the deduplication sweep -/

theorem keyLe_iff (rev : Bool) (a b : Cand) :
    keyLe rev a b = true ↔
      (lowOf rev a < lowOf rev b ∨
        (lowOf rev a = lowOf rev b ∧ highOf rev b ≤ highOf rev a)) := by
  cases rev <;>
    simp [keyLe, pairLexLe, sortKey, lowOf, highOf]

theorem keyLe_total (rev : Bool) (a b : Cand) :
    keyLe rev a b = true ∨ keyLe rev b a = true := by
  rw [keyLe_iff, keyLe_iff]
  omega

theorem keyLe_trans (rev : Bool) (a b c : Cand)
    (h1 : keyLe rev a b = true) (h2 : keyLe rev b c = true) :
    keyLe rev a c = true := by
  rw [keyLe_iff] at h1 h2 ⊢
  omega

theorem sInsert_perm (le : Cand → Cand → Bool) (c : Cand) :
    ∀ l : List Cand, List.Perm (sInsert le c l) (c :: l) := by
  intro l
  induction l with
  | nil => exact List.Perm.refl _
  | cons d rest ih =>
    rw [sInsert]
    split
    · exact List.Perm.refl _
    · exact (ih.cons d).trans (List.Perm.swap c d rest)

theorem sortCands_perm (le : Cand → Cand → Bool) :
    ∀ l : List Cand, List.Perm (sortCands le l) l := by
  intro l
  induction l with
  | nil => exact List.Perm.refl _
  | cons c rest ih => exact (sInsert_perm le c _).trans (ih.cons c)

theorem sInsert_pairwise (rev : Bool) (c : Cand) :
    ∀ l : List Cand, l.Pairwise (fun a b => keyLe rev a b = true) →
      (sInsert (keyLe rev) c l).Pairwise (fun a b => keyLe rev a b = true) := by
  intro l
  induction l with
  | nil => intro _; simp [sInsert]
  | cons d rest ih =>
    intro h
    obtain ⟨hd, hrest⟩ := List.pairwise_cons.mp h
    rw [sInsert]
    split
    · rename_i hcd
      refine List.pairwise_cons.mpr ⟨?_, h⟩
      intro x hx
      rcases List.mem_cons.mp hx with hxd | hxr
      · rw [hxd]; exact hcd
      · exact keyLe_trans rev c d x hcd (hd x hxr)
    · rename_i hcd
      have hdc : keyLe rev d c = true :=
        (keyLe_total rev c d).resolve_left hcd
      refine List.pairwise_cons.mpr ⟨?_, ih hrest⟩
      intro x hx
      rcases List.mem_cons.mp ((sInsert_perm (keyLe rev) c rest).mem_iff.mp hx) with hxc | hxr
      · rw [hxc]; exact hdc
      · exact hd x hxr

theorem sortCands_pairwise (rev : Bool) :
    ∀ l : List Cand,
      (sortCands (keyLe rev) l).Pairwise (fun a b => keyLe rev a b = true) := by
  intro l
  induction l with
  | nil => exact List.Pairwise.nil
  | cons c rest ih => exact sInsert_pairwise rev c _ ih

theorem rcrSweep_mem_gt (rev : Bool) :
    ∀ (l : List Cand) (p : Int) (y : Cand),
      y ∈ rcrSweep rev p l → p < highOf rev y := by
  intro l
  induction l with
  | nil => intro p y h; simp [rcrSweep] at h
  | cons c rest ih =>
    intro p y hmem
    by_cases hp : p < highOf rev c
    · rw [rcrSweep, if_pos hp] at hmem
      rcases List.mem_cons.mp hmem with hyc | hym
      · rw [hyc]; exact hp
      · exact lt_trans hp (ih _ y hym)
    · rw [rcrSweep, if_neg hp] at hmem
      exact ih p y hmem

theorem rcrSweep_sublist (rev : Bool) :
    ∀ (l : List Cand) (p : Int), List.Sublist (rcrSweep rev p l) l := by
  intro l
  induction l with
  | nil => intro p; exact List.Sublist.refl _
  | cons c rest ih =>
    intro p
    rw [rcrSweep]
    split
    · exact (ih _).cons₂ c
    · exact (ih p).cons c

theorem rcrSweep_pairwise_high (rev : Bool) :
    ∀ (l : List Cand) (p : Int),
      (rcrSweep rev p l).Pairwise (fun a b => highOf rev a < highOf rev b) := by
  intro l
  induction l with
  | nil => intro p; simp [rcrSweep]
  | cons c rest ih =>
    intro p
    rw [rcrSweep]
    split
    · exact List.pairwise_cons.mpr ⟨fun y hy => rcrSweep_mem_gt rev rest _ y hy, ih _⟩
    · exact ih p

/-- In the sweep of a sorted list, a candidate strictly nested (in footprint
terms) inside another candidate of the list is never kept. -/
theorem rcrSweep_drops_nested (rev : Bool) :
    ∀ (l : List Cand) (p : Int) (x y : Cand),
      l.Pairwise (fun a b => keyLe rev a b = true) → x ∈ l →
      (lowOf rev x < lowOf rev y ∨
        (lowOf rev x = lowOf rev y ∧ highOf rev y < highOf rev x)) →
      highOf rev y ≤ highOf rev x →
      y ∉ rcrSweep rev p l := by
  intro l
  induction l with
  | nil => intro p x y _ hx _ _ _; simp at hx
  | cons c rest ih =>
    intro p x y hpw hx hstrict hhigh hmem
    obtain ⟨hc, hrest⟩ := List.pairwise_cons.mp hpw
    by_cases hp : p < highOf rev c
    · rw [rcrSweep, if_pos hp] at hmem
      rcases List.mem_cons.mp hmem with hyc | hym
      · subst hyc
        rcases List.mem_cons.mp hx with hxc | hxr
        · subst hxc; omega
        · have hcx := (keyLe_iff rev y x).mp (hc x hxr)
          omega
      · have hgt := rcrSweep_mem_gt rev rest _ y hym
        rcases List.mem_cons.mp hx with hxc | hxr
        · subst hxc; omega
        · exact ih _ x y hrest hxr hstrict hhigh hym
    · rw [rcrSweep, if_neg hp] at hmem
      rcases List.mem_cons.mp hx with hxc | hxr
      · subst hxc
        have hgt := rcrSweep_mem_gt rev rest p y hmem
        omega
      · exact ih p x y hrest hxr hstrict hhigh hmem

/-- In the sweep of a sorted list, a member is either kept, or already
below the initial threshold, or (weakly) contained in the footprint of a
different member of the list. -/
theorem rcrSweep_keeps_or_contained (rev : Bool) :
    ∀ (l : List Cand) (p : Int) (x : Cand),
      l.Pairwise (fun a b => keyLe rev a b = true) → x ∈ l →
      x ∈ rcrSweep rev p l ∨ highOf rev x ≤ p ∨
        ∃ d, d ∈ l ∧ d ≠ x ∧ lowOf rev d ≤ lowOf rev x ∧
          highOf rev x ≤ highOf rev d := by
  intro l
  induction l with
  | nil => intro p x _ hx; simp at hx
  | cons c rest ih =>
    intro p x hpw hx
    obtain ⟨hc, hrest⟩ := List.pairwise_cons.mp hpw
    by_cases hxc : x = c
    · subst hxc
      by_cases hp : p < highOf rev x
      · left
        rw [rcrSweep, if_pos hp]
        exact List.mem_cons_self ..
      · right; left; omega
    · have hxr : x ∈ rest := (List.mem_cons.mp hx).resolve_left hxc
      by_cases hp : p < highOf rev c
      · rw [rcrSweep, if_pos hp]
        rcases ih (highOf rev c) x hrest hxr with hin | hhi | ⟨d, hd, hdx, hl, hh⟩
        · exact Or.inl (List.mem_cons_of_mem c hin)
        · refine Or.inr (Or.inr ⟨c, List.mem_cons_self .., fun hcx => hxc hcx.symm, ?_, hhi⟩)
          have := (keyLe_iff rev c x).mp (hc x hxr)
          omega
        · exact Or.inr (Or.inr ⟨d, List.mem_cons_of_mem c hd, hdx, hl, hh⟩)
      · rw [rcrSweep, if_neg hp]
        rcases ih p x hrest hxr with hin | hhi | ⟨d, hd, hdx, hl, hh⟩
        · exact Or.inl hin
        · exact Or.inr (Or.inl hhi)
        · exact Or.inr (Or.inr ⟨d, List.mem_cons_of_mem c hd, hdx, hl, hh⟩)

/-! ### Membership chains through the pipeline -/

theorem mem_bucket_of_mem_find_orfs_strand (minDnaLen : Int) (strand : Bool)
    (dna : List Char) (frame : Int) (c : Cand)
    (h : c ∈ find_orfs_strand minDnaLen strand dna frame) :
    c ∈ bucket minDnaLen strand dna frame := by
  have h1 : c ∈ sortCands (keyLe strand) (bucket minDnaLen strand dna frame) :=
    (rcrSweep_sublist strand _ (-1)).subset h
  exact (sortCands_perm (keyLe strand) _).subset h1

theorem bucket_mem_spec (minDnaLen : Int) (strand : Bool) (dna : List Char)
    (frame : Int) (c : Cand) (h : c ∈ bucket minDnaLen strand dna frame) :
    c ∈ rawCands strand dna ∧ c.2.2.length % 3 = 0 ∧
      minDnaLen ≤ (c.2.2.length : Int) ∧ frameOf c = frame := by
  rw [bucket, List.mem_filter] at h
  obtain ⟨hm, hp⟩ := h
  simp only [passFilter, Bool.and_eq_true, beq_iff_eq, decide_eq_true_eq] at hp
  exact ⟨hm, hp.1.1, hp.1.2, hp.2⟩

theorem mapCand_false (lenSeq : Int) (m : Nat × List Char) :
    mapCand false lenSeq m = ((m.1 : Int) + 1, (m.1 : Int) + (m.2.length : Int), m.2) := by
  simp [mapCand]

theorem mapCand_true (lenSeq : Int) (m : Nat × List Char) :
    mapCand true lenSeq m =
      (lenSeq - (m.1 : Int), lenSeq - ((m.1 : Int) + (m.2.length : Int)) + 1, m.2) := by
  simp [mapCand]

/-! ### Concrete example sequences -/

/-- The sequence of the spec's concrete test case (18 nt). -/
def exDna : List Char :=
  ['A','T','G','A','A','A','T','A','A','A','T','G','C','C','C','T','A','G']

/-- A strand sequence with three in-frame start codons (offsets 0, 6, 12)
all reaching the same stop codon at offset 15. -/
def cexDna : List Char :=
  ['A','T','G','A','A','A','A','T','G','A','A','A','A','T','G','T','A','A']

/-- The candidate the scan emits at offset 6 of `cexDna`. -/
def cexOrf1 : List Char :=
  ['A','T','G','A','A','A','A','T','G','T','A','A']

/-- The candidate the scan emits at offset 12 of `cexDna`. -/
def cexOrf2 : List Char :=
  ['A','T','G','T','A','A']

/-! ### Claim theorems -/

/-- C1 (counterexample): on the strand sequence `"ATGCC"`, the start codon
at offset 0 reaches the string boundary with 2 nucleotides remaining and
no stop codon, yet the emitted candidate is `"ATG"` alone — the scan
output does not contain the end-spanning candidate `"ATGCC"` the claim
describes, and the emitted candidate's length is a multiple of 3. -/
theorem scan_tail_included_cex :
    scan ['A', 'T', 'G', 'C', 'C'] = [(0, ['A', 'T', 'G'])] ∧
    (0, ['A', 'T', 'G', 'C', 'C']) ∉ scan ['A', 'T', 'G', 'C', 'C'] ∧
    (['A', 'T', 'G'] : List Char).length % 3 = 0 := by
  decide

/-- C1 (amended): when the in-frame extension reaches the string boundary
with 1 or 2 nucleotides remaining and no stop codon, the emitted candidate
ends at the last full-codon boundary — the 1-2 nucleotide tail is excluded
(the zero-width lookahead alternative fires before the consuming one) —
so every raw candidate's length is a multiple of 3 and the length-parity
filter never removes a raw candidate. -/
theorem scan_candidate_mod3 (s : List Char) (i : Nat) (orf : List Char)
    (h : (i, orf) ∈ scan s) :
    orf.length % 3 = 0 ∧ i + orf.length ≤ s.length := by
  obtain ⟨rest, n, -, -, -, -, h5, -, h7⟩ := scan_mem_shape s i orf h
  exact ⟨h5, h7⟩

/-- Witness for `scan_candidate_mod3` at the boundary input `"ATGCC"`. -/
theorem scan_candidate_mod3_witness :
    (0, ['A', 'T', 'G']) ∈ scan ['A', 'T', 'G', 'C', 'C'] ∧
    ((['A', 'T', 'G'] : List Char).length % 3 = 0 ∧
      0 + (['A', 'T', 'G'] : List Char).length ≤
        (['A', 'T', 'G', 'C', 'C'] : List Char).length) :=
  ⟨by decide, scan_candidate_mod3 ['A', 'T', 'G', 'C', 'C'] 0 ['A', 'T', 'G'] (by decide)⟩

/-- C5: every candidate a strand's scan contributes carries the mapped
1-based coordinates `start = startOffset + 1`, `end = endOffset` on
strand 0 and `start = N - startOffset`, `end = N - endOffset + 1` on
strand 1 (`N` the original length, `endOffset = startOffset + len`),
and every strand-1 candidate has `start > end`. -/
theorem coordinate_mapping (dna : List Char) (strand : Bool) (c : Cand)
    (h : c ∈ rawCands strand dna) :
    ∃ i orf, (i, orf) ∈ scan (strandSeq strand dna) ∧
      (strand = false → c = ((i : Int) + 1, (i : Int) + (orf.length : Int), orf)) ∧
      (strand = true →
        c = ((dna.length : Int) - (i : Int),
             (dna.length : Int) - ((i : Int) + (orf.length : Int)) + 1, orf) ∧
        c.2.1 < c.1) := by
  rw [rawCands, List.mem_map] at h
  obtain ⟨m, hm, hc⟩ := h
  obtain ⟨i, orf⟩ := m
  refine ⟨i, orf, hm, ?_, ?_⟩
  · intro hstrand
    subst hstrand
    rw [← hc, mapCand_false]
  · intro hstrand
    subst hstrand
    obtain ⟨-, -, -, -, -, h6, h7⟩ := scan_mem_shape _ i orf hm
    rw [strandSeq_length] at h7
    constructor
    · rw [← hc, mapCand_true]
    · rw [← hc, mapCand_true]
      simp only
      omega

/-- Witness for `coordinate_mapping` at a strand-1 candidate of `"CCAT"`
(whose reverse complement `"ATGG"` starts with a start codon). -/
theorem coordinate_mapping_witness :
    ((4 : Int), (2 : Int), ['A','T','G']) ∈ rawCands true ['C','C','A','T'] ∧
    (∃ i orf, (i, orf) ∈ scan (strandSeq true ['C','C','A','T']) ∧
      (true = false →
        (((4 : Int), (2 : Int), ['A','T','G']) : Cand) =
          ((i : Int) + 1, (i : Int) + (orf.length : Int), orf)) ∧
      (true = true →
        (((4 : Int), (2 : Int), ['A','T','G']) : Cand) =
          (((['C','C','A','T'] : List Char).length : Int) - (i : Int),
           ((['C','C','A','T'] : List Char).length : Int) -
             ((i : Int) + (orf.length : Int)) + 1, orf) ∧
        (2 : Int) < 4)) :=
  ⟨by decide,
    coordinate_mapping ['C','C','A','T'] true (4, 2, ['A','T','G']) (by decide)⟩

/-- C6: every candidate surviving in the final output of any
(strand, frame) group has a nucleotide subsequence whose length is a
multiple of 3 and at least the minimum length. -/
theorem surviving_length_invariant (minDnaLen : Int) (strand : Bool) (dna : List Char)
    (frame : Int) (c : Cand) (h : c ∈ find_orfs_strand minDnaLen strand dna frame) :
    c.2.2.length % 3 = 0 ∧ minDnaLen ≤ (c.2.2.length : Int) := by
  have hs := bucket_mem_spec minDnaLen strand dna frame c
    (mem_bucket_of_mem_find_orfs_strand minDnaLen strand dna frame c h)
  exact ⟨hs.2.1, hs.2.2.1⟩

/-- Witness for `surviving_length_invariant` at the concrete example. -/
theorem surviving_length_invariant_witness :
    ((1 : Int), (9 : Int), ['A','T','G','A','A','A','T','A','A']) ∈
      find_orfs_strand 1 false exDna 0 ∧
    ((['A','T','G','A','A','A','T','A','A'] : List Char).length % 3 = 0 ∧
      (1 : Int) ≤ ((['A','T','G','A','A','A','T','A','A'] : List Char).length : Int)) :=
  ⟨by decide, surviving_length_invariant 1 false exDna 0
    (1, 9, ['A','T','G','A','A','A','T','A','A']) (by decide)⟩

/-- C7: the frame under which a surviving candidate is bucketed equals
`(start - 1) mod 3` computed from its mapped 1-based start coordinate, on
either strand, and that value lies in `{0, 1, 2}`. -/
theorem frame_bucketing (minDnaLen : Int) (strand : Bool) (dna : List Char)
    (frame : Int) (c : Cand) (h : c ∈ find_orfs_strand minDnaLen strand dna frame) :
    frame = (c.1 - 1) % 3 ∧ (frame = 0 ∨ frame = 1 ∨ frame = 2) := by
  have hs := bucket_mem_spec minDnaLen strand dna frame c
    (mem_bucket_of_mem_find_orfs_strand minDnaLen strand dna frame c h)
  have hf := hs.2.2.2
  rw [frameOf] at hf
  omega

/-- Witness for `frame_bucketing` at the concrete example. -/
theorem frame_bucketing_witness :
    ((10 : Int), (18 : Int), ['A','T','G','C','C','C','T','A','G']) ∈
      find_orfs_strand 1 false exDna 0 ∧
    ((0 : Int) = ((10 : Int) - 1) % 3 ∧
      ((0 : Int) = 0 ∨ (0 : Int) = 1 ∨ (0 : Int) = 2)) :=
  ⟨by decide, frame_bucketing 1 false exDna 0
    (10, 18, ['A','T','G','C','C','C','T','A','G']) (by decide)⟩

/-- C9: a sequence shorter than 3 nucleotides, or a strand whose scanned
sequence contains no occurrence of the start codon `ATG`, contributes no
surviving candidate to any frame of that strand's output (and the
computation is total, so no failure occurs). -/
theorem empty_result_short_or_no_start (dna : List Char) (minDnaLen : Int)
    (strand : Bool) (frame : Int)
    (h : dna.length < 3 ∨ hasATG (strandSeq strand dna) = false) :
    find_orfs_strand minDnaLen strand dna frame = [] := by
  have hatg : hasATG (strandSeq strand dna) = false := by
    rcases h with hlen | hatg
    · exact hasATG_false_of_short _ (by rw [strandSeq_length]; exact hlen)
    · exact hatg
  have hscan : scan (strandSeq strand dna) = [] := scanAux_of_hasATG_false _ 0 hatg
  rw [find_orfs_strand, bucket, rawCands, hscan]
  rfl

/-- Witness for `empty_result_short_or_no_start` on the 2-nt input `"AA"`. -/
theorem empty_result_short_or_no_start_witness :
    ((['A', 'A'] : List Char).length < 3 ∨
      hasATG (strandSeq false ['A', 'A']) = false) ∧
    find_orfs_strand 30 false ['A', 'A'] 0 = [] :=
  ⟨Or.inl (by decide),
    empty_result_short_or_no_start ['A', 'A'] 30 false 0 (Or.inl (by decide))⟩

/-- The orientation-normalized genomic footprint of a candidate:
`(low, high) = (end, start)` on strand 1, `(start, end)` on strand 0. -/
def footprint (strand : Bool) (c : Cand) : Int × Int :=
  (lowOf strand c, highOf strand c)

/-- `x` is a strict subset of `y` as a closed interval of positions. -/
def strictSubRange (x y : Int × Int) : Prop :=
  y.1 ≤ x.1 ∧ x.2 ≤ y.2 ∧ x ≠ y

/-- Kept candidates of `remove_contained_ranges` are pairwise strictly
increasing in both footprint bounds. -/
theorem rcr_pairwise (rev : Bool) (ranges : List Cand) :
    (remove_contained_ranges ranges rev).Pairwise
      (fun a b => lowOf rev a < lowOf rev b ∧ highOf rev a < highOf rev b) := by
  have hkey : (remove_contained_ranges ranges rev).Pairwise
      (fun a b => keyLe rev a b = true) :=
    List.Pairwise.sublist (rcrSweep_sublist rev _ (-1)) (sortCands_pairwise rev ranges)
  have hhigh : (remove_contained_ranges ranges rev).Pairwise
      (fun a b => highOf rev a < highOf rev b) :=
    rcrSweep_pairwise_high rev (sortCands (keyLe rev) ranges) (-1)
  refine (hkey.and hhigh).imp ?_
  intro a b hab
  obtain ⟨hk, hh⟩ := hab
  rw [keyLe_iff] at hk
  exact ⟨by omega, hh⟩

/-- C3: in every (strand, frame) group of the final output, no surviving
candidate's genomic footprint is a strict subset of another surviving
candidate's footprint — the sort-and-sweep of `remove_contained_ranges`
leaves only maximal ranges. -/
theorem dedup_maximality (minDnaLen : Int) (strand : Bool) (dna : List Char)
    (frame : Int) (c1 c2 : Cand)
    (h1 : c1 ∈ find_orfs_strand minDnaLen strand dna frame)
    (h2 : c2 ∈ find_orfs_strand minDnaLen strand dna frame)
    (hne : c1 ≠ c2) :
    ¬ strictSubRange (footprint strand c1) (footprint strand c2) := by
  intro hsub
  have hpw := rcr_pairwise strand (bucket minDnaLen strand dna frame)
  have hS : (find_orfs_strand minDnaLen strand dna frame).Pairwise
      (fun a b => (lowOf strand a < lowOf strand b ∧ highOf strand a < highOf strand b) ∨
        (lowOf strand b < lowOf strand a ∧ highOf strand b < highOf strand a)) :=
    hpw.imp (fun hab => Or.inl hab)
  have hsym : Symmetric (fun a b : Cand =>
      (lowOf strand a < lowOf strand b ∧ highOf strand a < highOf strand b) ∨
        (lowOf strand b < lowOf strand a ∧ highOf strand b < highOf strand a)) :=
    fun a b hab => hab.symm
  have hor := List.Pairwise.forall hsym hS h1 h2 hne
  obtain ⟨hl, hh, -⟩ := hsub
  simp only [footprint] at hl hh
  rcases hor with ⟨ha, hb⟩ | ⟨ha, hb⟩ <;> omega

/-- Witness for `dedup_maximality` at the two surviving candidates of the
concrete example. -/
theorem dedup_maximality_witness :
    ((1 : Int), (9 : Int), ['A','T','G','A','A','A','T','A','A']) ∈
      find_orfs_strand 1 false exDna 0 ∧
    ((10 : Int), (18 : Int), ['A','T','G','C','C','C','T','A','G']) ∈
      find_orfs_strand 1 false exDna 0 ∧
    (((1 : Int), (9 : Int), ['A','T','G','A','A','A','T','A','A']) : Cand) ≠
      ((10 : Int), (18 : Int), ['A','T','G','C','C','C','T','A','G']) ∧
    ¬ strictSubRange
      (footprint false (1, 9, ['A','T','G','A','A','A','T','A','A']))
      (footprint false (10, 18, ['A','T','G','C','C','C','T','A','G'])) :=
  ⟨by decide, by decide, by decide,
    dedup_maximality 1 false exDna 0
      (1, 9, ['A','T','G','A','A','A','T','A','A'])
      (10, 18, ['A','T','G','C','C','C','T','A','G'])
      (by decide) (by decide) (by decide)⟩

/-- C4: on the 18-nt input `"ATGAAATAAATGCCCTAG"` with minimum length 1,
the pipeline's strand-0 output is exactly the two candidates
`(1, 9, "ATGAAATAA")` and `(10, 18, "ATGCCCTAG")`, both in frame 0 (all
other frames are empty), both surviving deduplication, with translations
`"MK*"` and `"MP*"`. -/
theorem concrete_case_two_orfs :
    find_orfs [("seq0", exDna)] 1 "seq0" false 0 =
      [(1, 9, ['A','T','G','A','A','A','T','A','A']),
       (10, 18, ['A','T','G','C','C','C','T','A','G'])] ∧
    (∀ f : Int, f ≠ 0 → find_orfs [("seq0", exDna)] 1 "seq0" false f = []) ∧
    DNA2AA ['A','T','G','A','A','A','T','A','A'] = ['M', 'K', '*'] ∧
    DNA2AA ['A','T','G','C','C','C','T','A','G'] = ['M', 'P', '*'] := by
  refine ⟨by decide, ?_, by decide, by decide⟩
  intro f hf
  show find_orfs_strand 1 false exDna f = []
  have hall : ∀ c ∈ rawCands false exDna, frameOf c = 0 := by decide
  have hbucket : bucket 1 false exDna f = [] := by
    rw [bucket, List.filter_eq_nil_iff]
    intro c hc
    have hfr := hall c hc
    simp only [Bool.and_eq_true, beq_iff_eq, hfr, not_and]
    intro _ h0
    exact hf h0.symm
  rw [find_orfs_strand, hbucket]
  rfl

/-- Witness for `concrete_case_two_orfs`, instantiating the empty-frame
clause at frame 1. -/
theorem concrete_case_two_orfs_witness :
    (1 : Int) ≠ 0 ∧ find_orfs [("seq0", exDna)] 1 "seq0" false 1 = [] :=
  ⟨by decide, concrete_case_two_orfs.2.1 1 (by decide)⟩

/-- C2 (counterexample): on `cexDna` the scan emits start-codon candidates
at offsets 6 and 12 reaching the same stop, both passing the minimum-length
filter 1 and falling in frame 0 — the exact scenario of the claim with
`p = 6` — yet the longer of the two is *not* kept by deduplication (a
still longer frame-0 candidate starting at offset 0 contains it), so
"keeping only the longer" fails. -/
theorem overlap_keep_longer_cex :
    (6, cexOrf1) ∈ scan (strandSeq false cexDna) ∧
    (12, cexOrf2) ∈ scan (strandSeq false cexDna) ∧
    6 + cexOrf1.length = 12 + cexOrf2.length ∧
    passFilter 1 (mapCand false (cexDna.length : Int) (6, cexOrf1)) = true ∧
    passFilter 1 (mapCand false (cexDna.length : Int) (12, cexOrf2)) = true ∧
    frameOf (mapCand false (cexDna.length : Int) (6, cexOrf1)) = 0 ∧
    mapCand false (cexDna.length : Int) (6, cexOrf1) ∉
      find_orfs_strand 1 false cexDna 0 := by
  decide

/-- C2 (amended): for start codons at offsets `p` and `p + 6` of one
strand's sequence whose candidates reach the same end offset (the shared
downstream stop), with the shorter passing the minimum-length filter:
both candidates are emitted into the frame bucket before deduplication
(overlapping starts are not skipped), deduplication removes the shorter,
later-starting candidate nested inside the longer one, and the longer is
kept unless some other same-frame candidate's footprint contains it. -/
theorem overlap_discovery_dedup (dna : List Char) (minDnaLen : Int) (strand : Bool)
    (p : Nat) (orf1 orf2 : List Char)
    (h1 : (p, orf1) ∈ scan (strandSeq strand dna))
    (h2 : (p + 6, orf2) ∈ scan (strandSeq strand dna))
    (hsame : p + orf1.length = p + 6 + orf2.length)
    (hmin : minDnaLen ≤ (orf2.length : Int)) :
    mapCand strand (dna.length : Int) (p, orf1) ∈
      bucket minDnaLen strand dna
        (frameOf (mapCand strand (dna.length : Int) (p, orf1))) ∧
    mapCand strand (dna.length : Int) (p + 6, orf2) ∈
      bucket minDnaLen strand dna
        (frameOf (mapCand strand (dna.length : Int) (p, orf1))) ∧
    mapCand strand (dna.length : Int) (p + 6, orf2) ∉
      find_orfs_strand minDnaLen strand dna
        (frameOf (mapCand strand (dna.length : Int) (p, orf1))) ∧
    (mapCand strand (dna.length : Int) (p, orf1) ∈
        find_orfs_strand minDnaLen strand dna
          (frameOf (mapCand strand (dna.length : Int) (p, orf1))) ∨
      ∃ d, d ∈ bucket minDnaLen strand dna
          (frameOf (mapCand strand (dna.length : Int) (p, orf1))) ∧
        d ≠ mapCand strand (dna.length : Int) (p, orf1) ∧
        lowOf strand d ≤ lowOf strand (mapCand strand (dna.length : Int) (p, orf1)) ∧
        highOf strand (mapCand strand (dna.length : Int) (p, orf1)) ≤
          highOf strand d) := by
  obtain ⟨-, -, -, -, -, -, hm3a, hge3a, hlea⟩ := scan_mem_shape _ p orf1 h1
  obtain ⟨-, -, -, -, -, -, hm3b, hge3b, hleb⟩ := scan_mem_shape _ (p + 6) orf2 h2
  rw [strandSeq_length] at hlea hleb
  have hlen : orf1.length = orf2.length + 6 := by omega
  have hfacts :
      (mapCand strand (dna.length : Int) (p, orf1)).2.2 = orf1 ∧
      (mapCand strand (dna.length : Int) (p + 6, orf2)).2.2 = orf2 ∧
      frameOf (mapCand strand (dna.length : Int) (p + 6, orf2)) =
        frameOf (mapCand strand (dna.length : Int) (p, orf1)) ∧
      (lowOf strand (mapCand strand (dna.length : Int) (p, orf1)) <
          lowOf strand (mapCand strand (dna.length : Int) (p + 6, orf2)) ∨
        (lowOf strand (mapCand strand (dna.length : Int) (p, orf1)) =
            lowOf strand (mapCand strand (dna.length : Int) (p + 6, orf2)) ∧
          highOf strand (mapCand strand (dna.length : Int) (p + 6, orf2)) <
            highOf strand (mapCand strand (dna.length : Int) (p, orf1)))) ∧
      highOf strand (mapCand strand (dna.length : Int) (p + 6, orf2)) ≤
        highOf strand (mapCand strand (dna.length : Int) (p, orf1)) ∧
      (-1 : Int) < highOf strand (mapCand strand (dna.length : Int) (p, orf1)) := by
    cases strand
    · rw [mapCand_false, mapCand_false]
      simp only [lowOf, highOf, frameOf, if_false, Bool.false_eq_true]
      refine ⟨?_, ?_, ?_, ?_, ?_, ?_⟩ <;> first
        | trivial
        | (push_cast; omega)
    · rw [mapCand_true, mapCand_true]
      simp only [lowOf, highOf, frameOf, if_true]
      refine ⟨?_, ?_, ?_, ?_, ?_, ?_⟩ <;> first
        | trivial
        | (push_cast; omega)
  obtain ⟨ho1, ho2, hfeq, hstrict, hhle, hhpos⟩ := hfacts
  have hb1 : mapCand strand (dna.length : Int) (p, orf1) ∈
      bucket minDnaLen strand dna
        (frameOf (mapCand strand (dna.length : Int) (p, orf1))) := by
    rw [bucket, List.mem_filter]
    refine ⟨?_, ?_⟩
    · rw [rawCands, List.mem_map]
      exact ⟨(p, orf1), h1, rfl⟩
    · rw [Bool.and_eq_true]
      refine ⟨?_, by simp⟩
      simp only [passFilter, Bool.and_eq_true, beq_iff_eq, decide_eq_true_eq, ho1]
      exact ⟨hm3a, by omega⟩
  have hb2 : mapCand strand (dna.length : Int) (p + 6, orf2) ∈
      bucket minDnaLen strand dna
        (frameOf (mapCand strand (dna.length : Int) (p, orf1))) := by
    rw [bucket, List.mem_filter]
    refine ⟨?_, ?_⟩
    · rw [rawCands, List.mem_map]
      exact ⟨(p + 6, orf2), h2, rfl⟩
    · rw [Bool.and_eq_true]
      refine ⟨?_, by rw [beq_iff_eq]; exact hfeq⟩
      simp only [passFilter, Bool.and_eq_true, beq_iff_eq, decide_eq_true_eq, ho2]
      exact ⟨hm3b, hmin⟩
  have hpw := sortCands_pairwise strand
    (bucket minDnaLen strand dna (frameOf (mapCand strand (dna.length : Int) (p, orf1))))
  have hmem1 : mapCand strand (dna.length : Int) (p, orf1) ∈
      sortCands (keyLe strand)
        (bucket minDnaLen strand dna
          (frameOf (mapCand strand (dna.length : Int) (p, orf1)))) :=
    (sortCands_perm _ _).mem_iff.mpr hb1
  refine ⟨hb1, hb2, ?_, ?_⟩
  · show mapCand strand (dna.length : Int) (p + 6, orf2) ∉
      rcrSweep strand (-1)
        (sortCands (keyLe strand)
          (bucket minDnaLen strand dna
            (frameOf (mapCand strand (dna.length : Int) (p, orf1)))))
    exact rcrSweep_drops_nested strand _ (-1) _ _ hpw hmem1 hstrict hhle
  · rcases rcrSweep_keeps_or_contained strand _ (-1) _ hpw hmem1 with
      hin | hhi | ⟨d, hd, hdx, hl, hh⟩
    · exact Or.inl hin
    · omega
    · exact Or.inr ⟨d, (sortCands_perm _ _).subset hd, hdx, hl, hh⟩

/-- Witness for `overlap_discovery_dedup` at `cexDna`, `p = 6`: both
candidates are emitted, the nested one at offset 12 is removed, and the
containment disjunct is realized by the offset-0 candidate. -/
theorem overlap_discovery_dedup_witness :
    mapCand false (cexDna.length : Int) (6, cexOrf1) ∈
      bucket 1 false cexDna
        (frameOf (mapCand false (cexDna.length : Int) (6, cexOrf1))) ∧
    mapCand false (cexDna.length : Int) (6 + 6, cexOrf2) ∈
      bucket 1 false cexDna
        (frameOf (mapCand false (cexDna.length : Int) (6, cexOrf1))) ∧
    mapCand false (cexDna.length : Int) (6 + 6, cexOrf2) ∉
      find_orfs_strand 1 false cexDna
        (frameOf (mapCand false (cexDna.length : Int) (6, cexOrf1))) ∧
    (mapCand false (cexDna.length : Int) (6, cexOrf1) ∈
        find_orfs_strand 1 false cexDna
          (frameOf (mapCand false (cexDna.length : Int) (6, cexOrf1))) ∨
      ∃ d, d ∈ bucket 1 false cexDna
          (frameOf (mapCand false (cexDna.length : Int) (6, cexOrf1))) ∧
        d ≠ mapCand false (cexDna.length : Int) (6, cexOrf1) ∧
        lowOf false d ≤ lowOf false (mapCand false (cexDna.length : Int) (6, cexOrf1)) ∧
        highOf false (mapCand false (cexDna.length : Int) (6, cexOrf1)) ≤
          highOf false d) :=
  overlap_discovery_dedup cexDna 1 false 6 cexOrf1 cexOrf2
    (by decide) (by decide) (by decide) (by decide)

theorem lookup_eq_none_of_not_mem_keys :
    ∀ (d : List (List Char × Char)) (k : List Char),
      k ∉ d.map Prod.fst → List.lookup k d = none := by
  intro d
  induction d with
  | nil => intro k _; rfl
  | cons e rest ih =>
    intro k hk
    obtain ⟨a, b⟩ := e
    simp only [List.map_cons, List.mem_cons, not_or] at hk
    have hne : (k == a) = false := beq_eq_false_iff_ne.mpr hk.1
    simp [List.lookup, hne, ih k hk.2]

/-- C8: the genetic-code table maps exactly 64 distinct canonical codons;
filtering it for the stop marker yields precisely `TAA`, `TAG`, `TGA`
(so 61 codons map to amino-acid symbols), and looking up any 3-symbol
string outside the table returns the placeholder `'X'` instead of
failing. -/
theorem genetic_code_coverage :
    (GENETIC_CODE.map Prod.fst).length = 64 ∧
    (GENETIC_CODE.map Prod.fst).Nodup ∧
    ((GENETIC_CODE.filter (fun e => e.2 == '*')).map Prod.fst =
      [['T','A','A'], ['T','A','G'], ['T','G','A']]) ∧
    (GENETIC_CODE.filter (fun e => !(e.2 == '*'))).length = 61 ∧
    (∀ codon : List Char, codon ∉ GENETIC_CODE.map Prod.fst → codonGet codon = 'X') := by
  refine ⟨by decide, by decide, by decide, by decide, ?_⟩
  intro codon hc
  rw [codonGet, lookup_eq_none_of_not_mem_keys GENETIC_CODE codon hc]
  rfl

/-- Witness for `genetic_code_coverage` at the ambiguity codon `"NNN"`. -/
theorem genetic_code_coverage_witness :
    ((['N','N','N'] : List Char) ∉ GENETIC_CODE.map Prod.fst) ∧
    codonGet ['N','N','N'] = 'X' :=
  ⟨by decide, genetic_code_coverage.2.2.2.2 ['N','N','N'] (by decide)⟩

/-- Spec-side description of translation: chunk the sequence into
non-overlapping 3-symbol codons left-to-right, the final chunk possibly
of length 1 or 2 when the sequence length is not a multiple of 3. -/
def specChunks : List Char → List (List Char)
  | [] => []
  | [a] => [[a]]
  | [a, b] => [[a, b]]
  | a :: b :: c :: rest => [a, b, c] :: specChunks rest

theorem codonGet_of_length_ne_three (k : List Char) (h : k.length ≠ 3) :
    codonGet k = 'X' := by
  have hkeys : ∀ a ∈ GENETIC_CODE.map Prod.fst, a.length = 3 := by decide
  have hnm : k ∉ GENETIC_CODE.map Prod.fst := fun hm => h (hkeys k hm)
  rw [codonGet, lookup_eq_none_of_not_mem_keys GENETIC_CODE k hnm]
  rfl

/-- C10: translation is total and chunk-wise: `DNA2AA` maps each
non-overlapping left-to-right 3-symbol chunk independently through the
table (placeholder `'X'` for unmapped chunks), emits one symbol per chunk
(so the output length is `⌈len/3⌉` and translation proceeds past unknown
codons), and a trailing chunk of length 1 or 2 yields `'X'`. -/
theorem translation_total_chunked (s : List Char) :
    DNA2AA s = (specChunks s).map codonGet ∧
    (DNA2AA s).length = (s.length + 2) / 3 ∧
    (s.length % 3 ≠ 0 → (DNA2AA s).getLast? = some 'X') := by
  induction s using DNA2AA.induct with
  | case1 => exact ⟨rfl, rfl, fun h => absurd rfl h⟩
  | case2 a =>
    refine ⟨rfl, by simp [DNA2AA], fun h => ?_⟩
    show ([codonGet [a]]).getLast? = some 'X'
    rw [codonGet_of_length_ne_three [a] (by simp)]
    rfl
  | case3 a b =>
    refine ⟨rfl, by simp [DNA2AA], fun h => ?_⟩
    show ([codonGet [a, b]]).getLast? = some 'X'
    rw [codonGet_of_length_ne_three [a, b] (by simp)]
    rfl
  | case4 a b c rest ih =>
    obtain ⟨ih1, ih2, ih3⟩ := ih
    refine ⟨?_, ?_, ?_⟩
    · rw [DNA2AA, specChunks, List.map_cons, ih1]
    · rw [DNA2AA, List.length_cons, ih2]
      simp only [List.length_cons]
      omega
    · intro h
      simp only [List.length_cons] at h
      have hrest : rest.length % 3 ≠ 0 := by omega
      have hne : DNA2AA rest ≠ [] := by
        intro hnil
        have hlen0 : (DNA2AA rest).length = 0 := by rw [hnil]; rfl
        rw [ih2] at hlen0
        omega
      obtain ⟨y, t, ht⟩ := List.exists_cons_of_ne_nil hne
      rw [DNA2AA, ht, List.getLast?_cons_cons, ← ht]
      exact ih3 hrest

/-- Witness for `translation_total_chunked` at the 1-nt input `"A"`. -/
theorem translation_total_chunked_witness :
    ((['A'] : List Char).length % 3 ≠ 0) ∧ (DNA2AA ['A']).getLast? = some 'X' :=
  ⟨by decide, (translation_total_chunked ['A']).2.2 (by decide)⟩

end ORFFinder
